import Mathlib

/-!
Shallow embedding of the client-side edit-task engine:
the paragraph reconciler, selection seeding and text assembly of
`EditingInterface` (src/client/frontend/src/components/editing/EditingInterface),
the task poller `pollTaskUntilComplete` and the URL wrap preprocessor
`processWrappableUrls` (src/client/frontend/src/utils/urlUtils.ts).
-/

namespace EditEngine

/-- Paragraph status, from the `Paragraph` interface in urlUtils.ts. -/
inductive PStatus where
  | CHANGED
  | UNCHANGED
  | REJECTED
  | SKIPPED
  | ERRORED
deriving DecidableEq, Repr

/-- The `Paragraph` interface from urlUtils.ts: original text, edited text, status, details. -/
structure Paragraph where
  before : String
  after : String
  status : PStatus
  status_details : String
deriving DecidableEq, Repr

/-- The `EditResponse` interface from urlUtils.ts. -/
structure EditResponse where
  paragraphs : List Paragraph
  article_title : Option String
  section_title : Option String
  article_url : Option String
deriving DecidableEq, Repr

/-- The `RenderItem` discriminated union from EditingInterface.
`originalIndex` is an `Int` because the source uses `-1` as the sentinel for
the pending-group start index. -/
inductive RenderItem where
  | changed (paragraph : Paragraph) (originalIndex : Int)
  | unchangedGroup (paragraphs : List Paragraph) (originalIndex : Int)
deriving DecidableEq, Repr

/-- The paragraphs carried by one render item. -/
def itemParas : RenderItem → List Paragraph
  | .changed p _ => [p]
  | .unchangedGroup ps _ => ps

/-- The `originalIndex` field of a render item. -/
def itemIdx : RenderItem → Int
  | .changed _ i => i
  | .unchangedGroup _ i => i

/-- Mutable state of the `renderItems` forEach loop in EditingInterface:
the emitted items, the pending accumulator of non-CHANGED paragraphs, and the
start index of that accumulator (`-1` when empty). -/
structure ReconcileState where
  items : List RenderItem
  unchangedGroup : List Paragraph
  firstUnchangedIndex : Int
deriving DecidableEq, Repr

/-- One iteration of the `renderItems` forEach body at position `index`. -/
def reconcileStep (s : ReconcileState) (p : Paragraph) (index : Nat) : ReconcileState :=
  if p.status = .CHANGED then
    let s1 :=
      if s.unchangedGroup.length > 0 then
        { items := s.items ++ [.unchangedGroup s.unchangedGroup s.firstUnchangedIndex],
          unchangedGroup := [],
          firstUnchangedIndex := -1 }
      else s
    { s1 with items := s1.items ++ [.changed p ((index : Int))] }
  else
    { s with
      firstUnchangedIndex :=
        if s.firstUnchangedIndex = -1 then (index : Int) else s.firstUnchangedIndex,
      unchangedGroup := s.unchangedGroup ++ [p] }

/-- The `renderItems` forEach loop over the remaining paragraphs. -/
def reconcileGo : List Paragraph → Nat → ReconcileState → ReconcileState
  | [], _, s => s
  | p :: rest, index, s => reconcileGo rest (index + 1) (reconcileStep s p index)

/-- Model of `renderItems` from EditingInterface: run the loop from the initial state,
then flush any remaining accumulator. -/
def renderItems (paragraphs : List Paragraph) : List RenderItem :=
  let s := reconcileGo paragraphs 0 ⟨[], [], -1⟩
  if s.unchangedGroup.length > 0 then
    s.items ++ [.unchangedGroup s.unchangedGroup s.firstUnchangedIndex]
  else
    s.items

/-- Concatenation of all paragraphs of a render-item list, in emission order. -/
def flatParas (items : List RenderItem) : List Paragraph :=
  (items.map itemParas).flatten

/-- The per-paragraph reviewer choice, from EditingInterface. -/
inductive Selection where
  | before
  | after
deriving DecidableEq, Repr

/-- The default-selection forEach of EditingInterface, indices counted from
`i`: every CHANGED paragraph gets an entry `before`; nothing else gets one. -/
def defaultSelectionsFrom : Nat → List Paragraph → List (Nat × Selection)
  | _, [] => []
  | i, p :: rest =>
    (if p.status = .CHANGED then [(i, Selection.before)] else []) ++
      defaultSelectionsFrom (i + 1) rest

/-- The seeded selection map built in EditingInterface when `data` loads. -/
def defaultSelections (paragraphs : List Paragraph) : List (Nat × Selection) :=
  defaultSelectionsFrom 0 paragraphs

/-- The per-paragraph text chosen by `handleCopyToClipboard` in
EditingInterface: `after` for a CHANGED paragraph whose selection is `after`,
otherwise `before`. -/
def choiceText (selections : Nat → Option Selection) (index : Nat) (p : Paragraph) : String :=
  if p.status = .CHANGED then
    match selections index with
    | some Selection.after => p.after
    | _ => p.before
  else
    p.before

/-- The mapped text list of `handleCopyToClipboard`, indices from `i`. -/
def assembleFrom (selections : Nat → Option Selection) : Nat → List Paragraph → List String
  | _, [] => []
  | i, p :: rest => choiceText selections i p :: assembleFrom selections (i + 1) rest

/-- The final text built by `handleCopyToClipboard`: per-paragraph choices
joined with a blank line. -/
def assemble (paragraphs : List Paragraph) (selections : Nat → Option Selection) : String :=
  String.intercalate "\n\n" (assembleFrom selections 0 paragraphs)

/-- Task status, from `TaskStatusResponse` in urlUtils.ts. -/
inductive TaskStatus where
  | PENDING
  | SUCCESS
  | FAILURE
  | STARTED
  | RETRY
deriving DecidableEq, Repr

/-- A processing phase name, from `ProgressData` in urlUtils.ts. -/
inductive Phase where
  | pending
  | pre_processing
  | llm_processing
  | post_processing
  | complete
deriving DecidableEq, Repr

/-- The `phase_counts` record of `ProgressData`. -/
structure PhaseCounts where
  pending : Nat
  pre_processing : Nat
  llm_processing : Nat
  post_processing : Nat
  complete : Nat
deriving DecidableEq, Repr

/-- One per-paragraph progress entry of `ProgressData`. -/
structure ParagraphProgress where
  index : Nat
  phase : Phase
  content_preview : String
  status : Option String
  started_at : Option String
  completed_at : Option String
deriving DecidableEq, Repr

/-- The `ProgressData` interface from urlUtils.ts. -/
structure ProgressData where
  total_paragraphs : Nat
  progress_percentage : Nat
  phase_counts : PhaseCounts
  paragraphs : List ParagraphProgress
deriving DecidableEq, Repr

/-- One response of `getTaskStatus`, from `TaskStatusResponse` in urlUtils.ts
(the task id field plays no role in the control flow of the poller). -/
structure TaskStatusResponse where
  status : TaskStatus
  result : Option EditResponse
  error : Option String
  progress : Option ProgressData
deriving DecidableEq, Repr

/-- A JavaScript `Error` value: its class name and its message.  Both
rejections in `pollTaskUntilComplete` are built with `new Error(...)`, whose
class name is the string "Error". -/
structure JSError where
  name : String
  message : String
deriving DecidableEq, Repr

/-- JavaScript new Error construction: the class name Error plus a message. -/
def mkError (msg : String) : JSError := ⟨"Error", msg⟩

/-- JavaScript `a || b` on an optional string: the fallback is used when the
field is absent or the empty string (both falsy). -/
def jsOr (a : Option String) (b : String) : String :=
  match a with
  | some s => if s = "" then b else s
  | none => b

/-- How a poll run ends: the promise resolves with an `EditResponse` or
rejects with an error value. -/
inductive PollOutcome where
  | resolved (r : EditResponse)
  | rejected (e : JSError)
deriving DecidableEq, Repr

/-- Observable trace of one run of the polling loop: its outcome, the number
of status fetches performed, and the progress snapshots passed to
`onProgress`, in order. -/
structure PollTrace where
  outcome : PollOutcome
  fetches : Nat
  progressEvents : List ProgressData
deriving DecidableEq, Repr

/-- The recursive `poll` closure of `pollTaskUntilComplete`.  `responses n`
is the response of the n-th status fetch (the source increments `attempts`
exactly once per non-terminal cycle, so the fetch index equals the current
value of `attempts`).  `remaining` is `maxAttempts - attempts`; the source
check `attempts >= maxAttempts` is `remaining = 0`.  Order of checks follows
the source: SUCCESS-with-result resolves, FAILURE rejects, then the attempt
budget is consulted, otherwise the next cycle is scheduled. -/
def pollGo (responses : Nat → TaskStatusResponse) : Nat → Nat → PollTrace
  | attempts, remaining =>
    let resp := responses attempts
    let evs := resp.progress.toList
    match resp.status, resp.result with
    | TaskStatus.SUCCESS, some res => ⟨.resolved res, 1, evs⟩
    | TaskStatus.FAILURE, _ => ⟨.rejected (mkError (jsOr resp.error "Task failed")), 1, evs⟩
    | _, _ =>
      match remaining with
      | 0 => ⟨.rejected (mkError "Polling timed out"), 1, evs⟩
      | r + 1 =>
        let t := pollGo responses (attempts + 1) r
        ⟨t.outcome, t.fetches + 1, evs ++ t.progressEvents⟩

/-- Model of `pollTaskUntilComplete` from urlUtils.ts, as a function of the response
stream; `attempts` starts at 0. -/
def pollTaskUntilComplete (responses : Nat → TaskStatusResponse)
    (maxAttempts : Nat) : PollTrace :=
  pollGo responses 0 maxAttempts

/-- A response on which the poller neither resolves nor rejects for a
task-state reason: it is not SUCCESS-with-result and not FAILURE. -/
def nonTerminal (resp : TaskStatusResponse) : Prop :=
  ¬(resp.status = TaskStatus.SUCCESS ∧ resp.result.isSome) ∧
    resp.status ≠ TaskStatus.FAILURE

instance (resp : TaskStatusResponse) : Decidable (nonTerminal resp) := by
  unfold nonTerminal
  infer_instance

/-- The zero-width space inserted by `addWrappableSpaces`. -/
def ZWSP : Char := '\u200B'

/-- The character class of `WRAPPABLE_CHARS_REGEX` in urlUtils.ts. -/
def wrappableChars : List Char := ['/', '.', '-', '_', '?', '=', '&', '%', '#', '~']

/-- Body of `addWrappableSpaces` on a character list: the regex replacement
`$1 ZWSP` puts a zero-width space right after every wrappable character. -/
def addWrappableSpacesL (cs : List Char) : List Char :=
  (cs.map (fun c => if c ∈ wrappableChars then [c, ZWSP] else [c])).flatten

/-- Model of `addWrappableSpaces` from urlUtils.ts. -/
def addWrappableSpaces (url : String) : String :=
  ⟨addWrappableSpacesL url.data⟩

/-- JavaScript regex `\s`: the ECMA-262 WhiteSpace and LineTerminator code
points. -/
def isJsSpace (c : Char) : Bool :=
  c.toNat = 0x9 || c.toNat = 0xA || c.toNat = 0xB || c.toNat = 0xC || c.toNat = 0xD ||
    c.toNat = 0x20 || c.toNat = 0xA0 || c.toNat = 0x1680 ||
    (0x2000 ≤ c.toNat && c.toNat ≤ 0x200A) ||
    c.toNat = 0x2028 || c.toNat = 0x2029 || c.toNat = 0x202F ||
    c.toNat = 0x205F || c.toNat = 0x3000 || c.toNat = 0xFEFF

/-- A character matched by `[^\s<>()]` in `URL_REGEX`. -/
def isUrlChar (c : Char) : Bool :=
  !isJsSpace c && c ≠ '<' && c ≠ '>' && c ≠ '(' && c ≠ ')'

/-- Match the protocol part `https?:\/\/` of `URL_REGEX` at the head of the
input: the greedy optional `s?` means `https://` is tried before `http://`
(at any given position at most one of the two can match). -/
def urlProtocol (cs : List Char) : Option (List Char × List Char) :=
  if cs.take 8 = "https://".data then some (cs.take 8, cs.drop 8)
  else if cs.take 7 = "http://".data then some (cs.take 7, cs.drop 7)
  else none

/-- Match the whole of `URL_REGEX` at the head of the input: the protocol
followed by a non-empty greedy run of `[^\s<>()]` characters.  Returns the
match and the rest of the input after it. -/
def matchUrlAt (cs : List Char) : Option (List Char × List Char) :=
  match urlProtocol cs with
  | some (proto, rest) =>
    let body := rest.takeWhile isUrlChar
    if body = [] then none else some (proto ++ body, rest.dropWhile isUrlChar)
  | none => none

/-- Model of String.match with URL_REGEX and the g flag: scan left to right, taking
non-overlapping matches and advancing one character where no match starts.
The fuel argument is an upper bound on the number of scan steps; every step
consumes at least one character, so the input length suffices. -/
def extractUrlsGo : Nat → List Char → List (List Char)
  | 0, _ => []
  | _ + 1, [] => []
  | fuel + 1, c :: t =>
    match matchUrlAt (c :: t) with
    | some (url, rest) => url :: extractUrlsGo fuel rest
    | none => extractUrlsGo fuel t

/-- Model of `extractUrls` from urlUtils.ts. -/
def extractUrls (text : String) : List String :=
  (extractUrlsGo text.data.length text.data).map (fun cs => ⟨cs⟩)

/-- The backquote character, code point 96. -/
def backquoteChar : Char := Char.ofNat 96

/-- The single-quote character, code point 39. -/
def quoteChar : Char := Char.ofNat 39

/-- ECMAScript GetSubstitution on a replacement string, for a regular
expression with no capture groups: a dollar followed by a dollar yields a
literal dollar, dollar-ampersand yields the matched substring, a dollar
followed by a backquote yields the part of the subject string before the
match, a dollar followed by a single quote yields the part after the match,
and any other dollar sequence (digits, angle bracket, lone trailing dollar)
is literal text.  `matched` is the matched substring, `before` and `after`
the parts of the subject string around the match. -/
def getSubstitution (matched before after : List Char) : List Char → List Char
  | [] => []
  | [c] => [c]
  | c :: d :: rest =>
    if c = '$' then
      if d = '$' then '$' :: getSubstitution matched before after rest
      else if d = '&' then matched ++ getSubstitution matched before after rest
      else if d = backquoteChar then before ++ getSubstitution matched before after rest
      else if d = quoteChar then after ++ getSubstitution matched before after rest
      else c :: getSubstitution matched before after (d :: rest)
    else c :: getSubstitution matched before after (d :: rest)

/-- Global replacement on character lists, as performed by String.replace
with new RegExp(escapeRegExp(url), g) and a string replacement argument:
scan the subject left to right, and at each non-overlapping occurrence of
`pat` emit the replacement processed by GetSubstitution (the match equals
`pat` itself, `before` accumulates the subject prefix already scanned, and
the remaining tail after the match is the subject suffix).  Fuel as above. -/
def replaceAllGo (pat repl : List Char) : Nat → List Char → List Char → List Char
  | 0, _, cs => cs
  | _ + 1, _, [] => []
  | fuel + 1, before, c :: t =>
    if pat ≠ [] ∧ pat.isPrefixOf (c :: t) then
      getSubstitution pat before ((c :: t).drop pat.length) repl ++
        replaceAllGo pat repl fuel (before ++ pat) ((c :: t).drop pat.length)
    else
      c :: replaceAllGo pat repl fuel (before ++ [c]) t

/-- Model of value.replace(new RegExp(escapeRegExp(pat), g), repl): the
pattern is regex-escaped, so occurrences of `pat` are found literally, but
the string replacement argument still undergoes GetSubstitution. -/
def replaceAll (value pat repl : String) : String :=
  ⟨replaceAllGo pat.data repl.data value.data.length [] value.data⟩

/-- Iteration order of `new Set(list).forEach`: first occurrences, in order. -/
def uniqueInOrderGo (seen : List String) : List String → List String
  | [] => []
  | x :: rest =>
    if seen.contains x then uniqueInOrderGo seen rest
    else x :: uniqueInOrderGo (x :: seen) rest

/-- The set new Set(commonUrls), traversed in insertion order. -/
def uniqueInOrder (l : List String) : List String := uniqueInOrderGo [] l

/-- Model of `processWrappableUrls` from urlUtils.ts. -/
def processWrappableUrls (oldValue newValue : String) : String × String :=
  let oldUrls := extractUrls oldValue
  let newUrls := extractUrls newValue
  let commonUrls := oldUrls.filter (fun url => newUrls.contains url)
  (uniqueInOrder commonUrls).foldl
    (fun acc url =>
      let wrappedUrl := addWrappableSpaces url
      (replaceAll acc.1 url wrappedUrl, replaceAll acc.2 url wrappedUrl))
    (oldValue, newValue)

/-- Remove every zero-width space from a character list. -/
def stripL (cs : List Char) : List Char :=
  cs.filter (fun c => c ≠ ZWSP)

/-- Remove every zero-width space from a string. -/
def stripZWSP (s : String) : String :=
  ⟨stripL s.data⟩

/-- The one-side URL of the aliasing counterexample input. -/
def urlOneSideUrl : String := "http://a.com/q"

/-! Concrete inputs used by the example parts of the specified properties. -/

/-- An UNCHANGED paragraph whose two sides agree. -/
def uPara (s : String) : Paragraph := ⟨s, s, PStatus.UNCHANGED, ""⟩

/-- A CHANGED paragraph with distinct sides. -/
def cPara (s t : String) : Paragraph := ⟨s, t, PStatus.CHANGED, ""⟩

/-- The `[U, C, U, U, C]` input of the reconciler example. -/
def reconcileExample : List Paragraph :=
  [uPara "p0", cPara "p1" "q1", uPara "p2", uPara "p3", cPara "p4" "q4"]

/-- The two-paragraph input of the assembler example. -/
def assembleExample : List Paragraph :=
  [⟨"A", "A", PStatus.UNCHANGED, ""⟩, ⟨"B", "B2", PStatus.CHANGED, ""⟩]

/-- The selection record with the single entry mapping index 1 to `after`. -/
def assembleExampleSel : Nat → Option Selection :=
  fun i => if i = 1 then some Selection.after else none

/-- A PENDING status response carrying no payload. -/
def pendingResp : TaskStatusResponse := ⟨TaskStatus.PENDING, none, none, none⟩

/-- A SUCCESS status response whose `result` field is absent. -/
def successNoResult : TaskStatusResponse := ⟨TaskStatus.SUCCESS, none, none, none⟩

/-- A sample task result. -/
def sampleResult : EditResponse := ⟨[cPara "a" "b"], none, none, none⟩

/-- A SUCCESS status response carrying `sampleResult`. -/
def successResp : TaskStatusResponse := ⟨TaskStatus.SUCCESS, some sampleResult, none, none⟩

/-- A FAILURE status response with backend message "boom". -/
def failureResp : TaskStatusResponse := ⟨TaskStatus.FAILURE, none, some "boom", none⟩

/-- Old-side input of the URL-wrapping example. -/
def urlExampleOld : String := "see http://a.com/x-y now"

/-- New-side input of the URL-wrapping example. -/
def urlExampleNew : String := "see http://a.com/x-y too"

/-- Old-side input whose second URL contains the common URL as a proper
prefix. -/
def urlOneSideOld : String := "http://a.com http://a.com/q"

/-- New-side input containing only the shorter URL. -/
def urlOneSideNew : String := "http://a.com"

/-- A response stream that reports progress-only twice and then SUCCESS with
a result. -/
def successStream : Nat → TaskStatusResponse :=
  fun n => if n < 2 then pendingResp else successResp

/-- A response stream that reports progress-only once and then FAILURE. -/
def failStream : Nat → TaskStatusResponse :=
  fun n => if n < 1 then pendingResp else failureResp

/-- Index property of an emitted item list: the `originalIndex` of every
item is the number of paragraphs emitted by the items before it. -/
def IdxOk (items : List RenderItem) : Prop :=
  ∀ j it, items[j]? = some it →
    itemIdx it = ((flatParas (items.take j)).length : Int)

/-- All paragraphs held by a loop state: the emitted ones, then the pending
accumulator. -/
def flatState (s : ReconcileState) : List Paragraph :=
  flatParas s.items ++ s.unchangedGroup

/-- Invariant of the `renderItems` loop after consuming `n` paragraphs. -/
def ReconcileInv (s : ReconcileState) (n : Nat) : Prop :=
  IdxOk s.items ∧
  (flatParas s.items).length + s.unchangedGroup.length = n ∧
  (s.unchangedGroup = [] → s.firstUnchangedIndex = -1) ∧
  (s.unchangedGroup ≠ [] → s.firstUnchangedIndex = ((flatParas s.items).length : Int))

/-! ## Theorems -/

theorem flatParas_append (a b : List RenderItem) :
    flatParas (a ++ b) = flatParas a ++ flatParas b := by
  simp [flatParas]

theorem flatParas_concat (items : List RenderItem) (x : RenderItem) :
    flatParas (items ++ [x]) = flatParas items ++ itemParas x := by
  simp [flatParas]

theorem idxOk_nil : IdxOk [] := by
  intro j it h
  simp at h

theorem idxOk_snoc {items : List RenderItem} {x : RenderItem} (h : IdxOk items)
    (hx : itemIdx x = ((flatParas items).length : Int)) : IdxOk (items ++ [x]) := by
  intro j it hj
  have hjlen : j < items.length + 1 := by
    have := List.getElem?_eq_some.mp hj
    simpa using this.1
  by_cases hlt : j < items.length
  · have hj2 : items[j]? = some it := by
      rw [List.getElem?_append] at hj
      simpa [hlt] using hj
    rw [List.take_append_of_le_length (le_of_lt hlt)]
    exact h j it hj2
  · have hj' : j = items.length := by omega
    subst hj'
    rw [List.getElem?_concat_length] at hj
    cases hj
    rw [List.take_left]
    exact hx

theorem reconcileStep_spec {s : ReconcileState} {n : Nat} (h : ReconcileInv s n)
    (p : Paragraph) :
    flatState (reconcileStep s p n) = flatState s ++ [p] ∧
      ReconcileInv (reconcileStep s p n) (n + 1) := by
  obtain ⟨hIdx, hLen, hEmpty, hNonempty⟩ := h
  by_cases hc : p.status = PStatus.CHANGED
  · by_cases hg : s.unchangedGroup.length > 0
    · have hne : s.unchangedGroup ≠ [] := by
        intro hnil
        rw [hnil] at hg
        simp at hg
      have hfirst := hNonempty hne
      have hstep : reconcileStep s p n =
          ⟨(s.items ++ [RenderItem.unchangedGroup s.unchangedGroup s.firstUnchangedIndex]) ++
              [RenderItem.changed p ((n : Int))], [], -1⟩ := by
        simp [reconcileStep, hc, hg]
      constructor
      · rw [hstep]
        simp [flatState, flatParas, itemParas]
      · refine ⟨?_, ?_, ?_, ?_⟩
        · rw [hstep]
          refine idxOk_snoc (idxOk_snoc hIdx ?_) ?_
          · simpa [itemIdx] using hfirst
          · have hlenmid :
                (flatParas (s.items ++
                  [RenderItem.unchangedGroup s.unchangedGroup s.firstUnchangedIndex])).length =
                  n := by
              rw [flatParas_concat]
              simp only [List.length_append, itemParas]
              omega
            simp [itemIdx, hlenmid]
        · rw [hstep]
          rw [flatParas_concat, flatParas_concat]
          simp only [List.length_append, itemParas, List.length_cons, List.length_nil]
          omega
        · rw [hstep]
          simp
        · rw [hstep]
          intro hab
          simp at hab
    · have hnil : s.unchangedGroup = [] := List.length_eq_zero.mp (by omega)
      have hfirst := hEmpty hnil
      have hlen0 : (flatParas s.items).length = n := by
        rw [hnil] at hLen
        simpa using hLen
      have hstep : reconcileStep s p n =
          ⟨s.items ++ [RenderItem.changed p ((n : Int))], s.unchangedGroup,
            s.firstUnchangedIndex⟩ := by
        simp [reconcileStep, hc, hg]
      constructor
      · rw [hstep]
        simp [flatState, flatParas, itemParas, hnil]
      · refine ⟨?_, ?_, ?_, ?_⟩
        · rw [hstep]
          refine idxOk_snoc hIdx ?_
          simp [itemIdx, hlen0]
        · rw [hstep]
          rw [flatParas_concat]
          simp only [List.length_append, itemParas, List.length_cons, List.length_nil, hnil]
          omega
        · rw [hstep]
          intro _
          exact hfirst
        · rw [hstep]
          intro hne
          exact absurd hnil hne
  · have hstep : reconcileStep s p n =
        ⟨s.items, s.unchangedGroup ++ [p],
          if s.firstUnchangedIndex = -1 then (n : Int) else s.firstUnchangedIndex⟩ := by
      simp [reconcileStep, hc]
    constructor
    · rw [hstep]
      simp [flatState]
    · refine ⟨?_, ?_, ?_, ?_⟩
      · rw [hstep]
        exact hIdx
      · rw [hstep]
        simp only [List.length_append, List.length_cons, List.length_nil]
        omega
      · rw [hstep]
        intro hab
        simp at hab
      · rw [hstep]
        intro _
        by_cases hnil : s.unchangedGroup = []
        · have hfirst := hEmpty hnil
          have hlen0 : (flatParas s.items).length = n := by
            rw [hnil] at hLen
            simpa using hLen
          simp [hfirst, hlen0]
        · have hfirst := hNonempty hnil
          have hne1 : s.firstUnchangedIndex ≠ -1 := by
            rw [hfirst]
            omega
          simp [hne1, hfirst]

theorem reconcileGo_spec :
    ∀ (ps : List Paragraph) (n : Nat) (s : ReconcileState), ReconcileInv s n →
      flatState (reconcileGo ps n s) = flatState s ++ ps ∧
        ReconcileInv (reconcileGo ps n s) (n + ps.length) := by
  intro ps
  induction ps with
  | nil =>
    intro n s h
    simpa [reconcileGo] using h
  | cons p rest ih =>
    intro n s h
    have hstep := reconcileStep_spec h p
    have hrest := ih (n + 1) (reconcileStep s p n) hstep.2
    constructor
    · rw [reconcileGo, hrest.1, hstep.1]
      simp
    · rw [reconcileGo]
      have : n + 1 + rest.length = n + (rest.length + 1) := by omega
      rw [this] at hrest
      simpa using hrest.2

theorem renderItems_spec (ps : List Paragraph) :
    flatParas (renderItems ps) = ps ∧ IdxOk (renderItems ps) := by
  have hinit : ReconcileInv ⟨[], [], -1⟩ 0 := by
    refine ⟨idxOk_nil, by simp [flatParas], by simp, by simp⟩
  have hgo := reconcileGo_spec ps 0 ⟨[], [], -1⟩ hinit
  obtain ⟨hflat, hIdx, hLen, hEmpty, hNonempty⟩ := hgo
  have hflat' : flatState (reconcileGo ps 0 ⟨[], [], -1⟩) = ps := by
    simpa [flatState, flatParas] using hflat
  set s := reconcileGo ps 0 ⟨[], [], -1⟩ with hs
  by_cases hg : s.unchangedGroup.length > 0
  · have hne : s.unchangedGroup ≠ [] := by
      intro hnil
      rw [hnil] at hg
      simp at hg
    have hfirst := hNonempty hne
    constructor
    · rw [renderItems]
      simp only [← hs, hg, if_true]
      rw [flatParas_concat]
      simpa [flatState, itemParas] using hflat'
    · rw [renderItems]
      simp only [← hs, hg, if_true]
      refine idxOk_snoc hIdx ?_
      simpa [itemIdx] using hfirst
  · have hnil : s.unchangedGroup = [] := List.length_eq_zero.mp (by omega)
    constructor
    · rw [renderItems]
      simp only [← hs, hg, if_false]
      rw [flatState, hnil] at hflat'
      simpa using hflat'
    · rw [renderItems]
      simp only [← hs, hg, if_false]
      exact hIdx

/-- C1: for every input paragraph sequence, `renderItems` outputs an ordered
sequence of render items that exactly partitions the input — concatenating
the item paragraphs in emission order reproduces the original sequence with
no gaps, duplicates or reordering — and the `originalIndex` of every item is the
source index of its (first) paragraph; on the `[U, C, U, U, C]` example the
output is `[UnchangedGroup[p0]@0, Changed p1@1, UnchangedGroup[p2,p3]@2,
Changed p4@4]`. -/
theorem renderItems_partitions_input :
    (∀ ps : List Paragraph,
      flatParas (renderItems ps) = ps ∧
      ∀ j it, (renderItems ps)[j]? = some it →
        itemIdx it = ((flatParas ((renderItems ps).take j)).length : Int)) ∧
    renderItems reconcileExample =
      [RenderItem.unchangedGroup [uPara "p0"] 0,
       RenderItem.changed (cPara "p1" "q1") 1,
       RenderItem.unchangedGroup [uPara "p2", uPara "p3"] 2,
       RenderItem.changed (cPara "p4" "q4") 4] := by
  constructor
  · intro ps
    exact ⟨(renderItems_spec ps).1, (renderItems_spec ps).2⟩
  · rfl

/-- Witness for C1 at the example input: the partition identity and the
`originalIndex` of the fourth item, instantiated concretely. -/
theorem renderItems_partitions_input_witness :
    flatParas (renderItems reconcileExample) = reconcileExample ∧
      itemIdx (RenderItem.changed (cPara "p4" "q4") 4) =
        ((flatParas ((renderItems reconcileExample).take 3)).length : Int) :=
  ⟨(renderItems_partitions_input.1 reconcileExample).1,
    (renderItems_partitions_input.1 reconcileExample).2 3
      (RenderItem.changed (cPara "p4" "q4") 4) (by decide)⟩

theorem defaultSelectionsFrom_length :
    ∀ (ps : List Paragraph) (i : Nat),
      (defaultSelectionsFrom i ps).length =
        ps.countP (fun p => decide (p.status = PStatus.CHANGED)) := by
  intro ps
  induction ps with
  | nil => intro i; rfl
  | cons p rest ih =>
    intro i
    by_cases hc : p.status = PStatus.CHANGED
    · simp [defaultSelectionsFrom, hc, List.countP_cons, ih (i + 1)]
    · simp [defaultSelectionsFrom, hc, List.countP_cons, ih (i + 1)]

theorem defaultSelectionsFrom_mem :
    ∀ (ps : List Paragraph) (i j : Nat) (c : Selection),
      (j, c) ∈ defaultSelectionsFrom i ps →
        c = Selection.before ∧
          ∃ k p, j = i + k ∧ ps[k]? = some p ∧ p.status = PStatus.CHANGED := by
  intro ps
  induction ps with
  | nil =>
    intro i j c h
    simp [defaultSelectionsFrom] at h
  | cons p rest ih =>
    intro i j c h
    rw [defaultSelectionsFrom, List.mem_append] at h
    rcases h with h | h
    · by_cases hc : p.status = PStatus.CHANGED
      · rw [if_pos hc] at h
        simp at h
        obtain ⟨hj, hcv⟩ := h
        exact ⟨hcv, 0, p, by omega, by simp, hc⟩
      · rw [if_neg hc] at h
        simp at h
    · obtain ⟨hcv, k, q, hj, hk, hq⟩ := ih (i + 1) j c h
      exact ⟨hcv, k + 1, q, by omega, by simpa using hk, hq⟩

theorem defaultSelectionsFrom_mem_of :
    ∀ (ps : List Paragraph) (i k : Nat) (p : Paragraph),
      ps[k]? = some p → p.status = PStatus.CHANGED →
        (i + k, Selection.before) ∈ defaultSelectionsFrom i ps := by
  intro ps
  induction ps with
  | nil =>
    intro i k p hk
    simp at hk
  | cons q rest ih =>
    intro i k p hk hp
    rw [defaultSelectionsFrom, List.mem_append]
    match k, hk with
    | 0, hk =>
      left
      have hq : q = p := by simpa using hk
      subst hq
      simp [hp]
    | k' + 1, hk =>
      right
      have hmem := ih (i + 1) k' p (by simpa using hk) hp
      have harith : i + (k' + 1) = i + 1 + k' := by omega
      rw [harith]
      exact hmem

/-- C6: for every paragraph sequence with N CHANGED paragraphs, the seeding
applied when the paragraphs become available produces a selection map with
exactly N entries, one per CHANGED index, each equal to `before`, and no
entry for any index whose paragraph has any other status. -/
theorem defaultSelections_seeding :
    ∀ ps : List Paragraph,
      (defaultSelections ps).length =
          ps.countP (fun p => decide (p.status = PStatus.CHANGED)) ∧
        (∀ i c, (i, c) ∈ defaultSelections ps →
          c = Selection.before ∧
            ∃ p, ps[i]? = some p ∧ p.status = PStatus.CHANGED) ∧
        ∀ i p, ps[i]? = some p → p.status = PStatus.CHANGED →
          (i, Selection.before) ∈ defaultSelections ps := by
  intro ps
  refine ⟨defaultSelectionsFrom_length ps 0, ?_, ?_⟩
  · intro i c h
    obtain ⟨hcv, k, p, hik, hk, hp⟩ := defaultSelectionsFrom_mem ps 0 i c h
    have hk0 : k = i := by omega
    subst hk0
    exact ⟨hcv, p, hk, hp⟩
  · intro i p hi hp
    have := defaultSelectionsFrom_mem_of ps 0 i p hi hp
    simpa using this

/-- Witness for C6 at the `[U, C, U, U, C]` example: two entries, both
`before`, and index 1 is seeded. -/
theorem defaultSelections_seeding_witness :
    (defaultSelections reconcileExample).length =
        reconcileExample.countP (fun p => decide (p.status = PStatus.CHANGED)) ∧
      (1, Selection.before) ∈ defaultSelections reconcileExample :=
  ⟨(defaultSelections_seeding reconcileExample).1,
    (defaultSelections_seeding reconcileExample).2.2 1 (cPara "p1" "q1")
      (by decide) rfl⟩

theorem choiceText_eq (sel : Nat → Option Selection) (i : Nat) (p : Paragraph) :
    choiceText sel i p =
      if p.status = PStatus.CHANGED ∧ sel i = some Selection.after
      then p.after else p.before := by
  rw [choiceText]
  by_cases hc : p.status = PStatus.CHANGED
  · cases hsel : sel i with
    | none => simp [hc, hsel]
    | some c =>
      cases c with
      | before => simp [hc, hsel]
      | after => simp [hc, hsel]
  · simp [hc]

theorem assembleFrom_length (sel : Nat → Option Selection) :
    ∀ (ps : List Paragraph) (i : Nat), (assembleFrom sel i ps).length = ps.length := by
  intro ps
  induction ps with
  | nil => intro i; rfl
  | cons p rest ih => intro i; simp [assembleFrom, ih (i + 1)]

theorem assembleFrom_getElem (sel : Nat → Option Selection) :
    ∀ (ps : List Paragraph) (i0 i : Nat) (p : Paragraph), ps[i]? = some p →
      (assembleFrom sel i0 ps)[i]? = some (choiceText sel (i0 + i) p) := by
  intro ps
  induction ps with
  | nil =>
    intro i0 i p hi
    simp at hi
  | cons q rest ih =>
    intro i0 i p hi
    match i, hi with
    | 0, hi =>
      have hq : q = p := by simpa using hi
      subst hq
      simp [assembleFrom]
    | i' + 1, hi =>
      have := ih (i0 + 1) i' p (by simpa using hi)
      have harith : i0 + (i' + 1) = i0 + 1 + i' := by omega
      rw [harith]
      simpa [assembleFrom] using this

/-- C7: `assemble` emits, for each paragraph in order, the `after` text iff
the paragraph is CHANGED with a recorded `after` selection, and the `before`
text otherwise (including CHANGED paragraphs with no recorded selection),
joining the texts with a blank-line separator; on the two-paragraph example
the output is "A\n\nB2" with selection 1 ↦ after, and "A\n\nB" with no
selection. -/
theorem assemble_chooses_texts :
    (∀ (ps : List Paragraph) (sel : Nat → Option Selection),
      assemble ps sel = String.intercalate "\n\n" (assembleFrom sel 0 ps) ∧
      (assembleFrom sel 0 ps).length = ps.length ∧
      ∀ i p, ps[i]? = some p →
        (assembleFrom sel 0 ps)[i]? =
          some (if p.status = PStatus.CHANGED ∧ sel i = some Selection.after
                then p.after else p.before)) ∧
    assemble assembleExample assembleExampleSel = "A\n\nB2" ∧
    assemble assembleExample (fun _ => none) = "A\n\nB" := by
  refine ⟨?_, by rfl, by rfl⟩
  intro ps sel
  refine ⟨rfl, assembleFrom_length sel ps 0, ?_⟩
  intro i p hi
  rw [assembleFrom_getElem sel ps 0 i p hi]
  rw [choiceText_eq]
  simp

/-- Witness for C7: the per-index characterization applied at index 1 of the
example, with the `after` selection recorded. -/
theorem assemble_chooses_texts_witness :
    (assembleFrom assembleExampleSel 0 assembleExample)[1]? = some "B2" := by
  have h := (assemble_chooses_texts.1 assembleExample assembleExampleSel).2.2 1
    (⟨"B", "B2", PStatus.CHANGED, ""⟩ : Paragraph) (by decide)
  simpa [assembleExampleSel] using h

theorem nonTerminal_pendingResp : nonTerminal pendingResp := by
  decide

theorem nonTerminal_successNoResult : nonTerminal successNoResult := by
  decide

theorem pollGo_timeout (responses : Nat → TaskStatusResponse)
    (h : ∀ n, nonTerminal (responses n)) :
    ∀ (remaining attempts : Nat),
      (pollGo responses attempts remaining).outcome =
          PollOutcome.rejected (mkError "Polling timed out") ∧
        (pollGo responses attempts remaining).fetches = remaining + 1 := by
  intro remaining
  induction remaining with
  | zero =>
    intro attempts
    obtain ⟨hns, hnf⟩ := h attempts
    rw [pollGo]
    cases hstat : (responses attempts).status <;>
      cases hres : (responses attempts).result <;>
      simp_all
  | succ r ih =>
    intro attempts
    obtain ⟨hns, hnf⟩ := h attempts
    have hrec := ih (attempts + 1)
    rw [pollGo]
    cases hstat : (responses attempts).status <;>
      cases hres : (responses attempts).result <;>
      simp_all

theorem pollGo_success (responses : Nat → TaskStatusResponse) (res : EditResponse) :
    ∀ (k attempts remaining : Nat), k ≤ remaining →
      (∀ j, j < k → nonTerminal (responses (attempts + j))) →
      (responses (attempts + k)).status = TaskStatus.SUCCESS →
      (responses (attempts + k)).result = some res →
      (pollGo responses attempts remaining).outcome = PollOutcome.resolved res ∧
        (pollGo responses attempts remaining).fetches = k + 1 := by
  intro k
  induction k with
  | zero =>
    intro attempts remaining _ _ hstat hres
    rw [Nat.add_zero] at hstat hres
    rw [pollGo.eq_def]
    simp [hstat, hres]
  | succ k' ih =>
    intro attempts remaining hk hpre hstat hres
    obtain ⟨hns, hnf⟩ : nonTerminal (responses attempts) := by
      have := hpre 0 (by omega)
      simpa using this
    have harith : attempts + (k' + 1) = attempts + 1 + k' := by omega
    match remaining, hk with
    | r + 1, hk =>
      have hrec := ih (attempts + 1) r (by omega)
        (fun j hj => by
          have := hpre (j + 1) (by omega)
          have ha : attempts + (j + 1) = attempts + 1 + j := by omega
          rwa [ha] at this)
        (by rwa [harith] at hstat)
        (by rwa [harith] at hres)
      rw [pollGo]
      cases hstat0 : (responses attempts).status <;>
        cases hres0 : (responses attempts).result <;>
        simp_all

theorem pollGo_failure (responses : Nat → TaskStatusResponse) :
    ∀ (k attempts remaining : Nat), k ≤ remaining →
      (∀ j, j < k → nonTerminal (responses (attempts + j))) →
      (responses (attempts + k)).status = TaskStatus.FAILURE →
      (pollGo responses attempts remaining).outcome =
          PollOutcome.rejected
            (mkError (jsOr (responses (attempts + k)).error "Task failed")) ∧
        (pollGo responses attempts remaining).fetches = k + 1 := by
  intro k
  induction k with
  | zero =>
    intro attempts remaining _ _ hstat
    rw [Nat.add_zero] at hstat ⊢
    rw [pollGo.eq_def]
    cases hres : (responses attempts).result <;> simp [hstat, hres]
  | succ k' ih =>
    intro attempts remaining hk hpre hstat
    obtain ⟨hns, hnf⟩ : nonTerminal (responses attempts) := by
      have := hpre 0 (by omega)
      simpa using this
    have harith : attempts + (k' + 1) = attempts + 1 + k' := by omega
    match remaining, hk with
    | r + 1, hk =>
      have hrec := ih (attempts + 1) r (by omega)
        (fun j hj => by
          have := hpre (j + 1) (by omega)
          have ha : attempts + (j + 1) = attempts + 1 + j := by omega
          rwa [ha] at this)
        (by rwa [harith] at hstat)
      rw [harith]
      rw [pollGo]
      cases hstat0 : (responses attempts).status <;>
        cases hres0 : (responses attempts).result <;>
        simp_all

theorem pollGo_fetches_pos (responses : Nat → TaskStatusResponse) :
    ∀ (remaining attempts : Nat), 1 ≤ (pollGo responses attempts remaining).fetches := by
  intro remaining
  induction remaining with
  | zero =>
    intro attempts
    rw [pollGo]
    cases hstat : (responses attempts).status <;>
      cases hres : (responses attempts).result <;>
      simp
  | succ r ih =>
    intro attempts
    rw [pollGo]
    cases hstat : (responses attempts).status <;>
      cases hres : (responses attempts).result <;>
      simp

/-- C2 (amended): for every response stream with no terminal response,
`pollTaskUntilComplete` rejects with the timeout error — a plain `Error`
whose message is "Polling timed out" — after exactly `maxAttempts + 1`
status polls (201 at the default 200), and performs no further fetches. -/
theorem pollTaskUntilComplete_times_out (responses : Nat → TaskStatusResponse)
    (maxAttempts : Nat) (h : ∀ n, nonTerminal (responses n)) :
    (pollTaskUntilComplete responses maxAttempts).outcome =
        PollOutcome.rejected (mkError "Polling timed out") ∧
      (pollTaskUntilComplete responses maxAttempts).fetches = maxAttempts + 1 :=
  pollGo_timeout responses h maxAttempts 0

/-- Witness for C2 (amended) on the all-PENDING stream with budget 3: four
fetches, timeout rejection. -/
theorem pollTaskUntilComplete_times_out_witness :
    (pollTaskUntilComplete (fun _ => pendingResp) 3).outcome =
        PollOutcome.rejected (mkError "Polling timed out") ∧
      (pollTaskUntilComplete (fun _ => pendingResp) 3).fetches = 4 :=
  pollTaskUntilComplete_times_out (fun _ => pendingResp) 3 (fun _ => nonTerminal_pendingResp)

/-- Counterexample to C2 as stated: at the default budget of 200, an
all-PENDING stream is fetched 201 times before the timeout rejection, not
exactly 200 times. -/
theorem pollTaskUntilComplete_not_200_fetches :
    (pollTaskUntilComplete (fun _ => pendingResp) 200).fetches = 201 ∧
      (pollTaskUntilComplete (fun _ => pendingResp) 200).fetches ≠ 200 := by
  have h := pollGo_timeout (fun _ => pendingResp) (fun _ => nonTerminal_pendingResp) 200 0
  have heq : pollTaskUntilComplete (fun _ => pendingResp) 200 =
      pollGo (fun _ => pendingResp) 0 200 := rfl
  rw [heq, h.2]
  omega

/-- C3: `pollTaskUntilComplete` resolves with the task result on the first
polled response whose status is SUCCESS with a result present, after any
number of prior non-terminal responses (a response at position `k` is polled
at all only when `k ≤ maxAttempts`), and performs exactly `k + 1` fetches —
none after resolving. -/
theorem pollTaskUntilComplete_resolves_first_success
    (responses : Nat → TaskStatusResponse) (k maxAttempts : Nat) (res : EditResponse)
    (hk : k ≤ maxAttempts) (hpre : ∀ j, j < k → nonTerminal (responses j))
    (hstat : (responses k).status = TaskStatus.SUCCESS)
    (hres : (responses k).result = some res) :
    (pollTaskUntilComplete responses maxAttempts).outcome = PollOutcome.resolved res ∧
      (pollTaskUntilComplete responses maxAttempts).fetches = k + 1 :=
  pollGo_success responses res k 0 maxAttempts hk
    (fun j hj => by simpa using hpre j hj) (by simpa using hstat) (by simpa using hres)

/-- Witness for C3: two progress-only responses then SUCCESS-with-result
resolves with the result after exactly three fetches. -/
theorem pollTaskUntilComplete_resolves_first_success_witness :
    (pollTaskUntilComplete successStream 200).outcome =
        PollOutcome.resolved sampleResult ∧
      (pollTaskUntilComplete successStream 200).fetches = 3 :=
  pollTaskUntilComplete_resolves_first_success successStream 2 200 sampleResult
    (by omega)
    (fun j hj => by
      have hlt : j < 2 := hj
      simp only [successStream, if_pos hlt]
      decide)
    (by decide) (by decide)

/-- C5 (amended): on the first FAILURE response the poller rejects with a
plain `Error` carrying the backend message verbatim when it is present and
non-empty; that error has the same kind (the `Error` class) as the timeout
error, the two rejections differing only in message text. -/
theorem pollTaskUntilComplete_failure_message
    (responses : Nat → TaskStatusResponse) (k maxAttempts : Nat) (m : String)
    (hk : k ≤ maxAttempts) (hpre : ∀ j, j < k → nonTerminal (responses j))
    (hstat : (responses k).status = TaskStatus.FAILURE)
    (herr : (responses k).error = some m) (hm : m ≠ "") :
    (pollTaskUntilComplete responses maxAttempts).outcome =
        PollOutcome.rejected ⟨"Error", m⟩ ∧
      (pollTaskUntilComplete responses maxAttempts).fetches = k + 1 ∧
      (⟨"Error", m⟩ : JSError).name = (mkError "Polling timed out").name := by
  have h := pollGo_failure responses k 0 maxAttempts hk
    (fun j hj => by simpa using hpre j hj) (by simpa using hstat)
  simp only [Nat.zero_add] at h
  rw [herr] at h
  have hjs : jsOr (some m) "Task failed" = m := by
    simp [jsOr, hm]
  rw [hjs] at h
  exact ⟨h.1, h.2, rfl⟩

/-- Witness for C5 (amended): one progress-only response then FAILURE with
message "boom" rejects with Error "boom" after two fetches. -/
theorem pollTaskUntilComplete_failure_message_witness :
    (pollTaskUntilComplete failStream 200).outcome =
        PollOutcome.rejected ⟨"Error", "boom"⟩ ∧
      (pollTaskUntilComplete failStream 200).fetches = 2 ∧
      (⟨"Error", "boom"⟩ : JSError).name = (mkError "Polling timed out").name :=
  pollTaskUntilComplete_failure_message failStream 1 200 "boom"
    (by omega)
    (fun j hj => by
      have hlt : j < 1 := hj
      simp only [failStream, if_pos hlt]
      decide)
    (by decide) (by decide) (by decide)

/-- Counterexample to C5 as stated: the FAILURE rejection and the timeout
rejection are both plain `Error` values with the same kind — they are
distinguishable only by message text, not by kind. -/
theorem pollTaskUntilComplete_same_error_kind :
    (pollTaskUntilComplete (fun _ => failureResp) 200).outcome =
        PollOutcome.rejected ⟨"Error", "boom"⟩ ∧
      (pollTaskUntilComplete (fun _ => pendingResp) 200).outcome =
        PollOutcome.rejected ⟨"Error", "Polling timed out"⟩ ∧
      (⟨"Error", "boom"⟩ : JSError).name =
        (⟨"Error", "Polling timed out"⟩ : JSError).name := by
  refine ⟨rfl, ?_, rfl⟩
  exact (pollGo_timeout (fun _ => pendingResp) (fun _ => nonTerminal_pendingResp) 200 0).1

/-- C10: a SUCCESS response with no result field is treated as non-terminal:
the poller neither resolves nor rejects on it, keeps polling, and — when
every response is non-terminal — ultimately rejects with the timeout error
after the full attempt budget, never resolving without a result. -/
theorem pollTaskUntilComplete_success_without_result
    (responses : Nat → TaskStatusResponse) (maxAttempts : Nat)
    (h0s : (responses 0).status = TaskStatus.SUCCESS)
    (h0r : (responses 0).result = none)
    (hall : ∀ n, nonTerminal (responses n)) :
    (pollTaskUntilComplete responses maxAttempts).outcome =
        PollOutcome.rejected (mkError "Polling timed out") ∧
      (pollTaskUntilComplete responses maxAttempts).fetches = maxAttempts + 1 :=
  pollGo_timeout responses hall maxAttempts 0

/-- Witness for C10: a stream of SUCCESS-without-result responses times out
after the full budget instead of resolving. -/
theorem pollTaskUntilComplete_success_without_result_witness :
    (pollTaskUntilComplete (fun _ => successNoResult) 2).outcome =
        PollOutcome.rejected (mkError "Polling timed out") ∧
      (pollTaskUntilComplete (fun _ => successNoResult) 2).fetches = 3 :=
  pollTaskUntilComplete_success_without_result (fun _ => successNoResult) 2
    rfl rfl (fun _ => nonTerminal_successNoResult)

/-- C4 (code divergence): `pollTaskUntilComplete` returns a bare promise and
offers no cancellation handle; after a non-terminal response the next status
fetch is unconditionally scheduled, so at least a second fetch always occurs
— nothing a consumer holds can suppress it. -/
theorem pollTaskUntilComplete_always_polls_again
    (responses : Nat → TaskStatusResponse) (maxAttempts : Nat)
    (hma : 1 ≤ maxAttempts) (h0 : nonTerminal (responses 0)) :
    2 ≤ (pollTaskUntilComplete responses maxAttempts).fetches := by
  obtain ⟨hns, hnf⟩ := h0
  match maxAttempts, hma with
  | r + 1, _ =>
    have hpos := pollGo_fetches_pos responses r 1
    rw [pollTaskUntilComplete, pollGo]
    cases hstat : (responses 0).status <;>
      cases hres : (responses 0).result <;>
      simp_all

/-- Witness for the C4 divergence theorem: with a single-attempt budget and a
PENDING first response, a second fetch still happens. -/
theorem pollTaskUntilComplete_always_polls_again_witness :
    2 ≤ (pollTaskUntilComplete (fun _ => pendingResp) 1).fetches :=
  pollTaskUntilComplete_always_polls_again (fun _ => pendingResp) 1
    (by omega) (by decide)

theorem stripL_append (a b : List Char) : stripL (a ++ b) = stripL a ++ stripL b := by
  simp [stripL]

theorem stripL_cons (c : Char) (l : List Char) :
    stripL (c :: l) = if c = ZWSP then stripL l else c :: stripL l := by
  by_cases hc : c = ZWSP <;> simp [stripL, hc]

theorem ZWSP_not_wrappable : ZWSP ∉ wrappableChars := by
  decide

theorem stripL_wrap (u : List Char) : stripL (addWrappableSpacesL u) = stripL u := by
  induction u with
  | nil => rfl
  | cons c t ih =>
    have hexp : addWrappableSpacesL (c :: t) =
        (if c ∈ wrappableChars then [c, ZWSP] else [c]) ++ addWrappableSpacesL t := by
      simp [addWrappableSpacesL]
    rw [hexp, stripL_append, ih]
    by_cases hw : c ∈ wrappableChars
    · have hcz : c ≠ ZWSP := by
        intro h
        rw [h] at hw
        exact ZWSP_not_wrappable hw
      rw [if_pos hw, stripL_cons, stripL_cons, stripL_cons]
      simp [hcz, stripL]
    · rw [if_neg hw, stripL_cons, stripL_cons]
      by_cases hc : c = ZWSP <;> simp [hc, stripL]

theorem getSubstitution_no_dollar :
    ∀ (repl matched before after : List Char), '$' ∉ repl →
      getSubstitution matched before after repl = repl
  | [], _, _, _, _ => rfl
  | [_], _, _, _, _ => rfl
  | c :: d :: rest, matched, before, after, h => by
    have hc : c ≠ '$' := by
      intro hh
      exact h (hh ▸ List.mem_cons_self c (d :: rest))
    rw [getSubstitution, if_neg hc]
    have hrec := getSubstitution_no_dollar (d :: rest) matched before after
      (fun hm => h (List.mem_cons_of_mem c hm))
    rw [hrec]

theorem mem_addWrappableSpacesL {c : Char} {u : List Char}
    (h : c ∈ addWrappableSpacesL u) : c ∈ u ∨ c = ZWSP := by
  induction u with
  | nil => simp [addWrappableSpacesL] at h
  | cons a t ih =>
    have hexp : addWrappableSpacesL (a :: t) =
        (if a ∈ wrappableChars then [a, ZWSP] else [a]) ++ addWrappableSpacesL t := by
      simp [addWrappableSpacesL]
    rw [hexp, List.mem_append] at h
    rcases h with h | h
    · by_cases hw : a ∈ wrappableChars
      · rw [if_pos hw] at h
        rcases List.mem_cons.mp h with h | h
        · exact Or.inl (h ▸ List.mem_cons_self a t)
        · exact Or.inr (by simpa using h)
      · rw [if_neg hw] at h
        exact Or.inl ((by simpa using h : c = a) ▸ List.mem_cons_self a t)
    · rcases ih h with h | h
      · exact Or.inl (List.mem_cons_of_mem a h)
      · exact Or.inr h

theorem no_dollar_wrap {u : List Char} (h : '$' ∉ u) :
    '$' ∉ addWrappableSpacesL u := by
  intro hmem
  rcases mem_addWrappableSpacesL hmem with h2 | h2
  · exact h h2
  · exact absurd h2 (by decide)

theorem stripL_replaceAllGo (pat repl : List Char) (hp : pat ≠ [])
    (hnd : '$' ∉ repl) (hsr : stripL repl = stripL pat) :
    ∀ (fuel : Nat) (before cs : List Char), cs.length ≤ fuel →
      stripL (replaceAllGo pat repl fuel before cs) = stripL cs := by
  intro fuel
  induction fuel with
  | zero =>
    intro before cs hlen
    have hnil : cs = [] := List.length_eq_zero.mp (by omega)
    subst hnil
    rfl
  | succ f ih =>
    intro before cs hlen
    cases cs with
    | nil => rfl
    | cons c t0 =>
      rw [replaceAllGo]
      by_cases hpre : pat.isPrefixOf (c :: t0)
      · rw [if_pos ⟨hp, hpre⟩]
        obtain ⟨t, ht⟩ := List.isPrefixOf_iff_prefix.mp hpre
        have hdrop : (c :: t0).drop pat.length = t := by
          rw [← ht]
          exact List.drop_left pat t
        have hlt : t.length ≤ f := by
          have hlen2 : (c :: t0).length = pat.length + t.length := by
            rw [← ht]
            simp
          have hp1 : 1 ≤ pat.length := by
            cases pat with
            | nil => exact absurd rfl hp
            | cons a b => simp
          simp at hlen hlen2
          omega
        rw [hdrop, getSubstitution_no_dollar repl pat before t hnd]
        rw [stripL_append, hsr, ih (before ++ pat) t hlt, ← stripL_append, ht]
      · rw [if_neg (fun h => hpre h.2)]
        have hlt : t0.length ≤ f := by
          simp at hlen
          omega
        rw [stripL_cons, stripL_cons, ih (before ++ [c]) t0 hlt]

theorem replaceAll_strip (v u : String) (hu : u.data ≠ [])
    (hd : '$' ∉ u.data) :
    stripL (replaceAll v u (addWrappableSpaces u)).data = stripL v.data := by
  exact stripL_replaceAllGo u.data (addWrappableSpacesL u.data) hu
    (no_dollar_wrap hd) (stripL_wrap u.data) v.data.length [] v.data (le_refl _)

theorem urlProtocol_ne_nil {cs proto rest : List Char}
    (h : urlProtocol cs = some (proto, rest)) : proto ≠ [] := by
  rw [urlProtocol] at h
  by_cases h8 : cs.take 8 = "https://".data
  · rw [if_pos h8] at h
    cases h
    rw [h8]
    decide
  · rw [if_neg h8] at h
    by_cases h7 : cs.take 7 = "http://".data
    · rw [if_pos h7] at h
      cases h
      rw [h7]
      decide
    · rw [if_neg h7] at h
      cases h

theorem matchUrlAt_ne_nil {cs url rest : List Char}
    (h : matchUrlAt cs = some (url, rest)) : url ≠ [] := by
  rw [matchUrlAt] at h
  cases hp : urlProtocol cs with
  | none =>
    rw [hp] at h
    cases h
  | some pr =>
    obtain ⟨proto, rest0⟩ := pr
    rw [hp] at h
    simp only at h
    by_cases hb : rest0.takeWhile isUrlChar = []
    · rw [if_pos hb] at h
      cases h
    · rw [if_neg hb] at h
      cases h
      have hpne := urlProtocol_ne_nil hp
      intro hnil
      rw [List.append_eq_nil] at hnil
      exact hpne hnil.1

theorem extractUrlsGo_ne_nil :
    ∀ (fuel : Nat) (cs url : List Char), url ∈ extractUrlsGo fuel cs → url ≠ [] := by
  intro fuel
  induction fuel with
  | zero =>
    intro cs url h
    simp [extractUrlsGo] at h
  | succ f ih =>
    intro cs url h
    cases cs with
    | nil => simp [extractUrlsGo] at h
    | cons c t =>
      rw [extractUrlsGo] at h
      cases hm : matchUrlAt (c :: t) with
      | some ur =>
        obtain ⟨u, rest⟩ := ur
        rw [hm] at h
        rcases List.mem_cons.mp h with h | h
        · subst h
          exact matchUrlAt_ne_nil hm
        · exact ih rest url h
      | none =>
        rw [hm] at h
        exact ih t url h

theorem extractUrls_data_ne_nil {text u : String} (h : u ∈ extractUrls text) :
    u.data ≠ [] := by
  rw [extractUrls] at h
  obtain ⟨cs, hcs, hu⟩ := List.mem_map.mp h
  have hne := extractUrlsGo_ne_nil text.data.length text.data cs hcs
  rw [← hu]
  exact hne

theorem uniqueInOrderGo_subset :
    ∀ (l : List String) (seen : List String) (x : String),
      x ∈ uniqueInOrderGo seen l → x ∈ l := by
  intro l
  induction l with
  | nil =>
    intro seen x h
    simp [uniqueInOrderGo] at h
  | cons a t ih =>
    intro seen x h
    rw [uniqueInOrderGo] at h
    by_cases hs : seen.contains a
    · rw [if_pos hs] at h
      exact List.mem_cons_of_mem a (ih seen x h)
    · rw [if_neg hs] at h
      rcases List.mem_cons.mp h with h | h
      · exact h ▸ List.mem_cons_self a t
      · exact List.mem_cons_of_mem a (ih (a :: seen) x h)

theorem foldWrap_strip :
    ∀ (urls : List String) (acc : String × String),
      (∀ u, u ∈ urls → u.data ≠ []) →
      (∀ u, u ∈ urls → '$' ∉ u.data) →
      stripL ((urls.foldl
          (fun acc url =>
            let wrappedUrl := addWrappableSpaces url
            (replaceAll acc.1 url wrappedUrl, replaceAll acc.2 url wrappedUrl))
          acc).1.data) = stripL acc.1.data ∧
        stripL ((urls.foldl
          (fun acc url =>
            let wrappedUrl := addWrappableSpaces url
            (replaceAll acc.1 url wrappedUrl, replaceAll acc.2 url wrappedUrl))
          acc).2.data) = stripL acc.2.data := by
  intro urls
  induction urls with
  | nil =>
    intro acc _ _
    exact ⟨rfl, rfl⟩
  | cons u t ih =>
    intro acc hne hnd
    have hu : u.data ≠ [] := hne u (List.mem_cons_self u t)
    have hud : '$' ∉ u.data := hnd u (List.mem_cons_self u t)
    have hrest := ih
      (replaceAll acc.1 u (addWrappableSpaces u), replaceAll acc.2 u (addWrappableSpaces u))
      (fun v hv => hne v (List.mem_cons_of_mem u hv))
      (fun v hv => hnd v (List.mem_cons_of_mem u hv))
    rw [List.foldl_cons]
    refine ⟨?_, ?_⟩
    · rw [hrest.1]
      exact replaceAll_strip acc.1 u hu hud
    · rw [hrest.2]
      exact replaceAll_strip acc.2 u hu hud

/-- C9 (amended): a URL occurring in only one side is never itself selected
for rewriting (it is not in the common-URL set), though its characters may
still gain markers where a common URL occurs inside it; and provided no URL
shared verbatim by both sides contains a dollar character (which ECMAScript
GetSubstitution would expand inside the replacement string), the
transformation only inserts zero-width markers: for inputs free of
zero-width spaces, stripping the markers from either output recovers the
input of that side exactly. -/
theorem processWrappableUrls_only_inserts (o n : String)
    (ho : ZWSP ∉ o.data) (hn : ZWSP ∉ n.data)
    (hdollar : ∀ u ∈ extractUrls o, u ∈ extractUrls n → '$' ∉ u.data) :
    stripZWSP (processWrappableUrls o n).1 = o ∧
      stripZWSP (processWrappableUrls o n).2 = n ∧
      ∀ u, u ∈ extractUrls o → u ∉ extractUrls n →
        u ∉ uniqueInOrder
          ((extractUrls o).filter (fun url => (extractUrls n).contains url)) := by
  have hcommon : ∀ u, u ∈ uniqueInOrder
      ((extractUrls o).filter (fun url => (extractUrls n).contains url)) →
      u.data ≠ [] := by
    intro u hu
    exact extractUrls_data_ne_nil
      (List.mem_of_mem_filter (uniqueInOrderGo_subset _ [] u hu))
  have hcommonD : ∀ u, u ∈ uniqueInOrder
      ((extractUrls o).filter (fun url => (extractUrls n).contains url)) →
      '$' ∉ u.data := by
    intro u hu
    have hfil := uniqueInOrderGo_subset _ [] u hu
    have hmo := (List.mem_filter.mp hfil).1
    have hmn : u ∈ extractUrls n := by
      simpa using (List.mem_filter.mp hfil).2
    exact hdollar u hmo hmn
  have hfold := foldWrap_strip
    (uniqueInOrder ((extractUrls o).filter (fun url => (extractUrls n).contains url)))
    (o, n) hcommon hcommonD
  have hstrip_o : stripL o.data = o.data := by
    rw [stripL]
    apply List.filter_eq_self.mpr
    intro c hc
    simp only [decide_eq_true_eq, ne_eq]
    intro h
    exact ho (h ▸ hc)
  have hstrip_n : stripL n.data = n.data := by
    rw [stripL]
    apply List.filter_eq_self.mpr
    intro c hc
    simp only [decide_eq_true_eq, ne_eq]
    intro h
    exact hn (h ▸ hc)
  have h1 : stripL (processWrappableUrls o n).1.data = stripL o.data := hfold.1
  have h2 : stripL (processWrappableUrls o n).2.data = stripL n.data := hfold.2
  refine ⟨?_, ?_, ?_⟩
  · rw [stripZWSP, h1, hstrip_o]
  · rw [stripZWSP, h2, hstrip_n]
  · intro u humem hunot hmem
    have hfil := uniqueInOrderGo_subset _ [] u hmem
    have hcontains := (List.mem_filter.mp hfil).2
    have : u ∈ extractUrls n := by
      simpa using hcontains
    exact hunot this

/-- Witness for C9 (amended) at the aliasing input, whose URLs contain no
dollar character: stripping the markers from both outputs recovers the
inputs, and the one-side URL is not a rewrite target. -/
theorem processWrappableUrls_only_inserts_witness :
    stripZWSP (processWrappableUrls urlOneSideOld urlOneSideNew).1 = urlOneSideOld ∧
      stripZWSP (processWrappableUrls urlOneSideOld urlOneSideNew).2 = urlOneSideNew ∧
      urlOneSideUrl ∉ uniqueInOrder
        ((extractUrls urlOneSideOld).filter
          (fun url => (extractUrls urlOneSideNew).contains url)) := by
  have h := processWrappableUrls_only_inserts urlOneSideOld urlOneSideNew
    (by decide) (by decide) (by decide)
  exact ⟨h.1, h.2.1, h.2.2 urlOneSideUrl (by decide) (by decide)⟩

/-- GetSubstitution is not the identity on dollar sequences: when the two
sides share the URL http://a.com/$&, the replacement string produced by
`addWrappableSpaces` still contains the adjacent pair dollar-ampersand, the
replace call expands it to the matched URL, and stripping the zero-width
markers does not recover the input — which is why C9 needs its
dollar-free proviso. -/
theorem replaceAll_dollar_substitution :
    stripZWSP (processWrappableUrls "http://a.com/$&" "http://a.com/$&").1 =
        "http://a.com/http://a.com/$&" ∧
      stripZWSP (processWrappableUrls "http://a.com/$&" "http://a.com/$&").1 ≠
        "http://a.com/$&" := by
  exact ⟨by decide, by decide⟩

/-- Counterexample to C9 as stated: in
old = "http://a.com http://a.com/q", new = "http://a.com", the URL
"http://a.com/q" occurs only in the old side, yet its characters are not
left untouched — the old-side output no longer contains it, because the
common URL "http://a.com" is rewritten inside it. -/
theorem processWrappableUrls_rewrites_one_side_url :
    urlOneSideUrl ∈ extractUrls urlOneSideOld ∧
      urlOneSideUrl ∉ extractUrls urlOneSideNew ∧
      ¬ List.IsInfix urlOneSideUrl.data
        (processWrappableUrls urlOneSideOld urlOneSideNew).1.data := by
  exact ⟨by decide, by decide, by decide⟩

/-- C8 (amended): on old = "see http://a.com/x-y now",
new = "see http://a.com/x-y too", the shared URL receives identical
zero-width markers in both outputs after each slash, dot and dash boundary —
but not after the colon — and stripping the markers from either output recovers
the original input (hence the URL) byte-for-byte. -/
theorem processWrappableUrls_example_markers :
    processWrappableUrls urlExampleOld urlExampleNew =
        ("see http:/\u200B/\u200Ba.\u200Bcom/\u200Bx-\u200By now",
         "see http:/\u200B/\u200Ba.\u200Bcom/\u200Bx-\u200By too") ∧
      List.IsInfix "http:/\u200B/\u200Ba.\u200Bcom/\u200Bx-\u200By".data
        (processWrappableUrls urlExampleOld urlExampleNew).1.data ∧
      List.IsInfix "http:/\u200B/\u200Ba.\u200Bcom/\u200Bx-\u200By".data
        (processWrappableUrls urlExampleOld urlExampleNew).2.data ∧
      stripZWSP (processWrappableUrls urlExampleOld urlExampleNew).1 = urlExampleOld ∧
      stripZWSP (processWrappableUrls urlExampleOld urlExampleNew).2 = urlExampleNew := by
  exact ⟨by decide, by decide, by decide, by decide, by decide⟩

/-- Counterexample to C8 as stated: neither output contains a zero-width
marker after the colon of the shared URL — the colon is not in the
wrap-eligible character class, so the claimed marker after each colon
boundary is absent. -/
theorem processWrappableUrls_no_marker_after_colon :
    ¬ List.IsInfix "http:\u200B".data
        (processWrappableUrls urlExampleOld urlExampleNew).1.data ∧
      ¬ List.IsInfix "http:\u200B".data
        (processWrappableUrls urlExampleOld urlExampleNew).2.data := by
  exact ⟨by decide, by decide⟩

end EditEngine

